import Mathlib

/-!
Formal model of the zkp-maze core, translated from the Rust sources:
  - core/src/rng.rs          (Park-Miller LCG)
  - core/src/maze_gen.rs     (recursive-backtracker maze generator)
  - methods/path-verify/src/main.rs  (path-verification guest program)

Machine integers are modelled as Nat with explicit reductions modulo 2^64
at the points where the Rust code performs u64/usize arithmetic that could
wrap.  Fixed-size Rust arrays indexed by small integers are modelled as
functions or lists, with out-of-range reads returning the array's fill
value exactly as the Rust arrays hold it.
-/

/-- 2^31 - 1, the Park-Miller modulus M from rng.rs. -/
def lcgModulus : Nat := 2147483647

/-- 2^64, the wrap-around modulus of Rust u64 / usize arithmetic. -/
def twoPow64 : Nat := 18446744073709551616

/-- SimpleLCG::new: seed 0 is replaced with 1. The state is the u32 seed value. -/
def SimpleLCG.new (seed : Nat) : Nat :=
  if seed = 0 then 1 else seed

/-- SimpleLCG::advance: state = (state as u64 * 48271) % M, truncated back to u32.
    The u64 product is modelled with an explicit reduction mod 2^64. -/
def SimpleLCG.advance (state : Nat) : Nat :=
  state * 48271 % twoPow64 % lcgModulus

/-- SimpleLCG::randint(a, b): advance, then a + (state * (b - a + 1)) / M,
    all in integer arithmetic.  Returns (result, new state). -/
def SimpleLCG.randint (a b state : Nat) : Nat × Nat :=
  let s := SimpleLCG.advance state
  let range := (b - a + 1) % twoPow64
  ((a + s * range % twoPow64 / lcgModulus) % twoPow64, s)

/-- SimpleLCG.choice_index(len): advance, then (state * len) / M.
    Returns (index, new state). -/
def SimpleLCG.choice_index (len state : Nat) : Nat × Nat :=
  let s := SimpleLCG.advance state
  (s * len % twoPow64 / lcgModulus, s)

/-- The state reached after n advances from a given state. -/
def SimpleLCG.iterate (state : Nat) : Nat → Nat
  | 0 => state
  | n + 1 => SimpleLCG.iterate (SimpleLCG.advance state) n

theorem SimpleLCG.iterate_succ (state n : Nat) :
    SimpleLCG.iterate state (n + 1) = SimpleLCG.iterate (SimpleLCG.advance state) n := rfl

/-- For any u32 state, the u64 intermediate product does not wrap. -/
theorem SimpleLCG.advance_eq (state : Nat) (h : state < 4294967296) :
    SimpleLCG.advance state = state * 48271 % lcgModulus := by
  unfold SimpleLCG.advance
  have hlt : state * 48271 < twoPow64 := by
    have h1 : state * 48271 ≤ 4294967295 * 48271 :=
      Nat.mul_le_mul_right _ (by omega)
    have h2 : (4294967295 : Nat) * 48271 < twoPow64 := by norm_num [twoPow64]
    omega
  rw [Nat.mod_eq_of_lt hlt]

theorem SimpleLCG.advance_lt (state : Nat) : SimpleLCG.advance state < lcgModulus :=
  Nat.mod_lt _ (by norm_num [lcgModulus])

/-- C5.  Both derived draws first advance the state to (state * 48271) mod (2^31-1)
    — the 64-bit intermediates never wrap for u32 states and the ranges in use —
    and then return exactly the integer-division formulas of the spec. -/
theorem randint_choice_index_formulas (state a b len : Nat)
    (hstate : state < 4294967296) (hab : a ≤ b) (hb : b < 4294967296)
    (hlen : len < 4294967296) :
    SimpleLCG.advance state = state * 48271 % lcgModulus ∧
    SimpleLCG.randint a b state =
      (a + state * 48271 % lcgModulus * (b - a + 1) / lcgModulus,
       state * 48271 % lcgModulus) ∧
    SimpleLCG.choice_index len state =
      (state * 48271 % lcgModulus * len / lcgModulus,
       state * 48271 % lcgModulus) := by
  have hadv := SimpleLCG.advance_eq state hstate
  have hlt : SimpleLCG.advance state < lcgModulus := SimpleLCG.advance_lt state
  refine ⟨hadv, ?_, ?_⟩
  · unfold SimpleLCG.randint
    have hrange : (b - a + 1) % twoPow64 = b - a + 1 := by
      apply Nat.mod_eq_of_lt
      have : b - a + 1 ≤ b + 1 := by omega
      calc b - a + 1 ≤ b + 1 := this
        _ < twoPow64 := by unfold twoPow64; omega
    have hmul : SimpleLCG.advance state * (b - a + 1) < twoPow64 := by
      have h1 : SimpleLCG.advance state * (b - a + 1) ≤ lcgModulus * (b + 1) := by
        apply Nat.mul_le_mul (le_of_lt hlt) (by omega)
      calc SimpleLCG.advance state * (b - a + 1) ≤ lcgModulus * (b + 1) := h1
        _ ≤ 2147483647 * 4294967296 := by
              unfold lcgModulus; exact Nat.mul_le_mul_left _ (by omega)
        _ < twoPow64 := by norm_num [twoPow64]
    have hsum : a + SimpleLCG.advance state * (b - a + 1) / lcgModulus < twoPow64 := by
      have : SimpleLCG.advance state * (b - a + 1) / lcgModulus ≤
          SimpleLCG.advance state * (b - a + 1) := Nat.div_le_self _ _
      have h2 : SimpleLCG.advance state * (b - a + 1) ≤ 2147483647 * 4294967296 := by
        calc SimpleLCG.advance state * (b - a + 1) ≤ lcgModulus * (b + 1) := by
              apply Nat.mul_le_mul (le_of_lt hlt) (by omega)
          _ ≤ 2147483647 * 4294967296 := by
              unfold lcgModulus; exact Nat.mul_le_mul_left _ (by omega)
      unfold twoPow64
      omega
    rw [hadv] at hmul hsum
    simp only [hrange, hadv, Nat.mod_eq_of_lt hmul, Nat.mod_eq_of_lt hsum]
  · unfold SimpleLCG.choice_index
    have hmul : SimpleLCG.advance state * len < twoPow64 := by
      have h1 : SimpleLCG.advance state * len ≤ lcgModulus * len := by
        apply Nat.mul_le_mul_right
        exact le_of_lt hlt
      calc SimpleLCG.advance state * len ≤ lcgModulus * len := h1
        _ ≤ 2147483647 * 4294967296 := by
              unfold lcgModulus; exact Nat.mul_le_mul_left _ (by omega)
        _ < twoPow64 := by norm_num [twoPow64]
    rw [hadv] at hmul
    simp only [hadv, Nat.mod_eq_of_lt hmul]

theorem randint_choice_index_formulas_witness :
    SimpleLCG.advance 12345 = 12345 * 48271 % lcgModulus ∧
    SimpleLCG.randint 5 10 12345 =
      (5 + 12345 * 48271 % lcgModulus * (10 - 5 + 1) / lcgModulus,
       12345 * 48271 % lcgModulus) ∧
    SimpleLCG.choice_index 4 12345 =
      (12345 * 48271 % lcgModulus * 4 / lcgModulus,
       12345 * 48271 % lcgModulus) :=
  randint_choice_index_formulas 12345 5 10 4 (by norm_num) (by norm_num)
    (by norm_num) (by norm_num)

/-- C8 counterexample: the 32-bit seed 2147483647 (= 2^31 - 1 = M itself) is not
    replaced at construction, and one advance sends the state to the fixed point 0,
    from which every further draw is 0. -/
theorem seed_m_reaches_zero :
    (2147483647 : Nat) < 4294967296 ∧
    SimpleLCG.new 2147483647 ≠ 0 ∧
    SimpleLCG.iterate (SimpleLCG.new 2147483647) 1 = 0 ∧
    (SimpleLCG.choice_index 4 0).1 = 0 := by
  have hnew : SimpleLCG.new 2147483647 = 2147483647 := by
    norm_num [SimpleLCG.new]
  have hadv : SimpleLCG.advance 2147483647 = 0 := by
    norm_num [SimpleLCG.advance, twoPow64, lcgModulus]
  refine ⟨by norm_num, ?_, ?_, ?_⟩
  · rw [hnew]; norm_num
  · show SimpleLCG.iterate (SimpleLCG.advance (SimpleLCG.new 2147483647)) 0 = 0
    rw [hnew, hadv]
    rfl
  · show SimpleLCG.advance 0 * 4 % twoPow64 / lcgModulus = 0
    norm_num [SimpleLCG.advance, twoPow64, lcgModulus]

theorem lcgModulus_coprime_48271 : Nat.Coprime lcgModulus 48271 := by
  unfold lcgModulus
  norm_num [Nat.Coprime]

/-- One advance keeps the state a nonzero residue mod M (for u32-bounded states
    that are not multiples of M). -/
theorem SimpleLCG.advance_invariant (state : Nat)
    (h : state % lcgModulus ≠ 0) (h32 : state < 4294967296) :
    SimpleLCG.advance state % lcgModulus ≠ 0 ∧ SimpleLCG.advance state < 4294967296 := by
  have hadv := SimpleLCG.advance_eq state h32
  constructor
  · rw [hadv, Nat.mod_mod_of_dvd _ dvd_rfl]
    intro hz
    have hdvd : lcgModulus ∣ state * 48271 := Nat.dvd_of_mod_eq_zero hz
    have h1 : lcgModulus ∣ state :=
      Nat.Coprime.dvd_of_dvd_mul_right lcgModulus_coprime_48271 hdvd
    obtain ⟨k, hk⟩ := h1
    exact h (by rw [hk]; exact Nat.mul_mod_right _ _)
  · calc SimpleLCG.advance state < lcgModulus := SimpleLCG.advance_lt state
      _ < 4294967296 := by norm_num [lcgModulus]

theorem SimpleLCG.iterate_invariant (state : Nat)
    (h : state % lcgModulus ≠ 0) (h32 : state < 4294967296) :
    ∀ n, SimpleLCG.iterate state n % lcgModulus ≠ 0 ∧
      SimpleLCG.iterate state n < 4294967296 := by
  intro n
  induction n generalizing state with
  | zero => exact ⟨h, h32⟩
  | succ n ih =>
      rw [SimpleLCG.iterate_succ]
      obtain ⟨h1, h2⟩ := SimpleLCG.advance_invariant state h h32
      exact ih _ h1 h2

/-- C8 amended: for every 32-bit seed that is zero or not a multiple of 2^31-1
    (all seeds except 2147483647 and 4294967294), the state is nonzero at every
    point of the advance sequence, so no such seed yields the all-zero stream. -/
theorem lcg_state_never_zero (seed : Nat) (h32 : seed < 4294967296)
    (h : seed % lcgModulus ≠ 0 ∨ seed = 0) :
    ∀ n, SimpleLCG.iterate (SimpleLCG.new seed) n ≠ 0 := by
  intro n
  have hmain : SimpleLCG.new seed % lcgModulus ≠ 0 ∧ SimpleLCG.new seed < 4294967296 := by
    rcases h with h | h
    · have hne : seed ≠ 0 := by
        intro hz; rw [hz] at h; exact h (by decide)
      unfold SimpleLCG.new
      rw [if_neg hne]
      exact ⟨h, h32⟩
    · rw [h]; exact ⟨by decide, by decide⟩
  obtain ⟨h1, h2⟩ := SimpleLCG.iterate_invariant (SimpleLCG.new seed) hmain.1 hmain.2 n
  intro hz
  rw [hz] at h1
  exact h1 (by decide)

theorem lcg_state_never_zero_witness :
    SimpleLCG.iterate (SimpleLCG.new 12345) 3 ≠ 0 :=
  lcg_state_never_zero 12345 (by norm_num) (Or.inl (by decide)) 3

/-! ## Path replay state machine (methods/path-verify/src/main.rs) -/

/-- Row deltas for [NORTH, EAST, SOUTH, WEST], as in the guest's lookup table. -/
def ROW_DELTAS : List Int := [-1, 0, 1, 0]

/-- Col deltas for [NORTH, EAST, SOUTH, WEST], as in the guest's lookup table. -/
def COL_DELTAS : List Int := [0, 1, 0, -1]

/-- Reinterpretation of a small signed value as usize, as in `(x : i32) as usize`:
    two's-complement wrap into [0, 2^64). -/
def i32ToUsize (x : Int) : Nat := (x % (18446744073709551616 : Int)).toNat

/-- The move-processing loop of verify_maze_solution: row/col is the position,
    hre is the has_reached_end flag; returns the flag after the loop. -/
def verifyMoves (grid : Nat → Nat → Nat) (gridSize endPos : Nat) :
    List Nat → Nat → Nat → Bool → Bool
  | [], _, _, hre => hre
  | mv :: rest, row, col, hre =>
    if hre then hre
    else if 3 < mv then false
    else
      let nextRow := i32ToUsize ((row : Int) + ROW_DELTAS.getD mv 0)
      let nextCol := i32ToUsize ((col : Int) + COL_DELTAS.getD mv 0)
      if gridSize ≤ nextRow ∨ gridSize ≤ nextCol then false
      else if grid nextRow nextCol ≠ 1 then false
      else verifyMoves grid gridSize endPos rest nextRow nextCol
        (if nextRow = endPos ∧ nextCol = endPos then true else hre)

/-- verify_maze_solution from the guest: start-cell check, then the move loop. -/
def verify_maze_solution (moves : List Nat) (grid : Nat → Nat → Nat)
    (gridSize startPos endPos : Nat) : Bool :=
  if grid startPos startPos ≠ 1 then false
  else verifyMoves grid gridSize endPos moves startPos startPos false

/-- Modelled from the spec (§4.6): a single valid move — a direction in {0,1,2,3}
    whose step stays inside the 41x41 bounds and lands on a path cell. -/
def specDelta (mv : Nat) : Int × Int :=
  if mv = 0 then (-1, 0) else if mv = 1 then (0, 1)
  else if mv = 2 then (1, 0) else (0, -1)

/-- Modelled from the spec (§4.6): one replay step; none when the move is rejected. -/
def specStep (grid : Nat → Nat → Nat) (p : Nat × Nat) (mv : Nat) :
    Option (Nat × Nat) :=
  if 3 < mv then none
  else
    let ni : Int := (p.1 : Int) + (specDelta mv).1
    let nj : Int := (p.2 : Int) + (specDelta mv).2
    if 0 ≤ ni ∧ ni < 41 ∧ 0 ≤ nj ∧ nj < 41 then
      if grid ni.toNat nj.toNat = 1 then some (ni.toNat, nj.toNat) else none
    else none

/-- Modelled from the spec (§4.6): replay a whole move list; some final position
    iff every move in the list is valid. -/
def specWalk (grid : Nat → Nat → Nat) : Nat × Nat → List Nat → Option (Nat × Nat)
  | p, [] => some p
  | p, mv :: rest =>
    match specStep grid p mv with
    | some q => specWalk grid q rest
    | none => none

theorem verifyMoves_of_hre (grid : Nat → Nat → Nat) (gridSize endPos : Nat)
    (ms : List Nat) (row col : Nat) :
    verifyMoves grid gridSize endPos ms row col true = true := by
  cases ms with
  | nil => rfl
  | cons mv rest => simp [verifyMoves]

theorem i32ToUsize_small (x : Nat) (h : x < 41) : i32ToUsize (x : Int) = x := by
  unfold i32ToUsize; omega

theorem i32ToUsize_add_one (x : Nat) (h : x < 41) :
    i32ToUsize ((x : Int) + 1) = x + 1 := by
  unfold i32ToUsize; omega

theorem i32ToUsize_sub_one_pos (x : Nat) (h0 : 0 < x) (h : x < 41) :
    i32ToUsize ((x : Int) + -1) = x - 1 := by
  unfold i32ToUsize; omega

theorem i32ToUsize_zero_sub_one (x : Nat) (h0 : x = 0) :
    i32ToUsize ((x : Int) + -1) = 18446744073709551615 := by
  subst h0; unfold i32ToUsize; omega

/-- The guest's delta-table step agrees with the spec's single-move relation:
    for in-bounds positions and directions 0-3, the spec's step is rejected
    exactly when the wrapped next position fails the bounds check or lands on
    a non-path cell, and otherwise moves to the same position. -/
theorem specStep_eq (g : Nat → Nat → Nat) (r c mv : Nat) (hr : r < 41) (hc : c < 41)
    (hmv : mv ≤ 3) :
    specStep g (r, c) mv =
      (if 41 ≤ i32ToUsize ((r : Int) + ROW_DELTAS.getD mv 0) ∨
          41 ≤ i32ToUsize ((c : Int) + COL_DELTAS.getD mv 0) then none
       else if g (i32ToUsize ((r : Int) + ROW_DELTAS.getD mv 0))
                (i32ToUsize ((c : Int) + COL_DELTAS.getD mv 0)) = 1 then
         some (i32ToUsize ((r : Int) + ROW_DELTAS.getD mv 0),
               i32ToUsize ((c : Int) + COL_DELTAS.getD mv 0))
       else none) := by
  interval_cases mv
  · -- NORTH: deltas (-1, 0)
    simp only [specStep, show specDelta 0 = (-1, 0) from rfl,
      show ROW_DELTAS.getD 0 0 = -1 from rfl, show COL_DELTAS.getD 0 0 = 0 from rfl,
      if_neg (by norm_num : ¬ (3:Nat) < 0), Int.add_zero]
    rcases Nat.eq_zero_or_pos r with h0 | h0
    · subst h0
      rw [if_neg (by omega)]
      rw [i32ToUsize_zero_sub_one 0 rfl]
      rw [if_pos (Or.inl (by norm_num))]
    · rw [if_pos (by refine ⟨by omega, by omega, by omega, by omega⟩)]
      rw [i32ToUsize_sub_one_pos r h0 hr, i32ToUsize_small c hc]
      have ht1 : ((r : Int) + -1).toNat = r - 1 := by omega
      have ht2 : ((c : Int)).toNat = c := by omega
      rw [ht1, ht2]
      conv_rhs => rw [if_neg (by omega : ¬ (41 ≤ r - 1 ∨ 41 ≤ c))]
  · -- EAST: deltas (0, +1)
    simp only [specStep, show specDelta 1 = (0, 1) from rfl,
      show ROW_DELTAS.getD 1 0 = 0 from rfl, show COL_DELTAS.getD 1 0 = 1 from rfl,
      if_neg (by norm_num : ¬ (3:Nat) < 1), Int.add_zero]
    rw [i32ToUsize_small r hr, i32ToUsize_add_one c hc]
    by_cases hb : c + 1 < 41
    · rw [if_pos (by refine ⟨by omega, by omega, by omega, by omega⟩)]
      have ht1 : ((r : Int)).toNat = r := by omega
      have ht2 : ((c : Int) + 1).toNat = c + 1 := by omega
      rw [ht1, ht2]
      conv_rhs => rw [if_neg (by omega : ¬ (41 ≤ r ∨ 41 ≤ c + 1))]
    · rw [if_neg (by omega)]
      rw [if_pos (Or.inr (by omega))]
  · -- SOUTH: deltas (+1, 0)
    simp only [specStep, show specDelta 2 = (1, 0) from rfl,
      show ROW_DELTAS.getD 2 0 = 1 from rfl, show COL_DELTAS.getD 2 0 = 0 from rfl,
      if_neg (by norm_num : ¬ (3:Nat) < 2), Int.add_zero]
    rw [i32ToUsize_add_one r hr, i32ToUsize_small c hc]
    by_cases hb : r + 1 < 41
    · rw [if_pos (by refine ⟨by omega, by omega, by omega, by omega⟩)]
      have ht1 : ((r : Int) + 1).toNat = r + 1 := by omega
      have ht2 : ((c : Int)).toNat = c := by omega
      rw [ht1, ht2]
      conv_rhs => rw [if_neg (by omega : ¬ (41 ≤ r + 1 ∨ 41 ≤ c))]
    · rw [if_neg (by omega)]
      rw [if_pos (Or.inl (by omega))]
  · -- WEST: deltas (0, -1)
    simp only [specStep, show specDelta 3 = (0, -1) from rfl,
      show ROW_DELTAS.getD 3 0 = 0 from rfl, show COL_DELTAS.getD 3 0 = -1 from rfl,
      if_neg (by norm_num : ¬ (3:Nat) < 3), Int.add_zero]
    rw [i32ToUsize_small r hr]
    rcases Nat.eq_zero_or_pos c with h0 | h0
    · subst h0
      rw [if_neg (by omega)]
      rw [i32ToUsize_zero_sub_one 0 rfl]
      rw [if_pos (Or.inr (by norm_num))]
    · rw [if_pos (by refine ⟨by omega, by omega, by omega, by omega⟩)]
      rw [i32ToUsize_sub_one_pos c h0 hc]
      have ht1 : ((r : Int)).toNat = r := by omega
      have ht2 : ((c : Int) + -1).toNat = c - 1 := by omega
      rw [ht1, ht2]
      conv_rhs => rw [if_neg (by omega : ¬ (41 ≤ r ∨ 41 ≤ c - 1))]

theorem no_walk_of_step_none (g : Nat → Nat → Nat) (r c mv : Nat) (rest : List Nat)
    (hne : ¬(r = 39 ∧ c = 39)) (hstep : specStep g (r, c) mv = none) :
    ¬ ∃ p q, mv :: rest = p ++ q ∧ specWalk g (r, c) p = some (39, 39) := by
  rintro ⟨p, q, hpq, hw⟩
  cases p with
  | nil =>
    simp only [specWalk, Option.some.injEq, Prod.mk.injEq] at hw
    exact hne ⟨hw.1, hw.2⟩
  | cons a as =>
    simp only [List.cons_append] at hpq
    injection hpq with h1 h2
    subst h1
    simp only [specWalk, hstep] at hw
    exact Option.noConfusion hw

theorem verifyMoves_iff (g : Nat → Nat → Nat) (ms : List Nat) :
    ∀ r c, r < 41 → c < 41 → ¬(r = 39 ∧ c = 39) →
    (verifyMoves g 41 39 ms r c false = true ↔
      ∃ p q, ms = p ++ q ∧ specWalk g (r, c) p = some (39, 39)) := by
  induction ms with
  | nil =>
    intro r c hr hc hne
    constructor
    · intro h
      exact absurd h (by simp [verifyMoves])
    · rintro ⟨p, q, hpq, hw⟩
      have hp : p = [] := by
        cases p with
        | nil => rfl
        | cons a as => simp at hpq
      subst hp
      simp only [specWalk, Option.some.injEq, Prod.mk.injEq] at hw
      exact absurd ⟨hw.1, hw.2⟩ hne
  | cons mv rest ih =>
    intro r c hr hc hne
    by_cases hmv : 3 < mv
    · have hstep : specStep g (r, c) mv = none := by
        unfold specStep
        rw [if_pos hmv]
      have hL : verifyMoves g 41 39 (mv :: rest) r c false = false := by
        simp only [verifyMoves]
        rw [if_neg (by simp : ¬ (false = true)), if_pos hmv]
      rw [hL]
      simp only [Bool.false_eq_true, false_iff]
      exact no_walk_of_step_none g r c mv rest hne hstep
    · push_neg at hmv
      have hspec := specStep_eq g r c mv hr hc hmv
      set nr := i32ToUsize ((r : Int) + ROW_DELTAS.getD mv 0) with hnr
      set nc := i32ToUsize ((c : Int) + COL_DELTAS.getD mv 0) with hnc
      have hL : verifyMoves g 41 39 (mv :: rest) r c false =
          (if 41 ≤ nr ∨ 41 ≤ nc then false
           else if g nr nc ≠ 1 then false
           else verifyMoves g 41 39 rest nr nc
             (if nr = 39 ∧ nc = 39 then true else false)) := by
        simp only [verifyMoves]
        rw [if_neg (by simp : ¬ (false = true)), if_neg (by omega : ¬ 3 < mv)]
      by_cases hb : 41 ≤ nr ∨ 41 ≤ nc
      · have hstep : specStep g (r, c) mv = none := by rw [hspec, if_pos hb]
        rw [hL, if_pos hb]
        simp only [Bool.false_eq_true, false_iff]
        exact no_walk_of_step_none g r c mv rest hne hstep
      · have hnrlt : nr < 41 := by omega
        have hnclt : nc < 41 := by omega
        by_cases hg : g nr nc = 1
        · have hstep : specStep g (r, c) mv = some (nr, nc) := by
            rw [hspec, if_neg hb, if_pos hg]
          have hL2 : verifyMoves g 41 39 (mv :: rest) r c false =
              verifyMoves g 41 39 rest nr nc
                (if nr = 39 ∧ nc = 39 then true else false) := by
            rw [hL, if_neg hb, if_neg (by simp [hg])]
          by_cases hgoal : nr = 39 ∧ nc = 39
          · rw [hL2, if_pos hgoal, verifyMoves_of_hre]
            simp only [true_iff]
            refine ⟨[mv], rest, rfl, ?_⟩
            simp only [specWalk, hstep]
            rw [hgoal.1, hgoal.2]
          · rw [hL2, if_neg hgoal]
            rw [ih nr nc hnrlt hnclt hgoal]
            constructor
            · rintro ⟨p, q, hpq, hw⟩
              refine ⟨mv :: p, q, by rw [hpq]; rfl, ?_⟩
              simp only [specWalk, hstep]
              exact hw
            · rintro ⟨p, q, hpq, hw⟩
              cases p with
              | nil =>
                simp only [specWalk, Option.some.injEq, Prod.mk.injEq] at hw
                exact absurd ⟨hw.1, hw.2⟩ hne
              | cons a as =>
                simp only [List.cons_append] at hpq
                injection hpq with h1 h2
                subst h1
                simp only [specWalk, hstep] at hw
                exact ⟨as, q, h2, hw⟩
        · have hstep : specStep g (r, c) mv = none := by
            rw [hspec, if_neg hb, if_neg hg]
          rw [hL, if_neg hb, if_pos hg]
          simp only [Bool.false_eq_true, false_iff]
          exact no_walk_of_step_none g r c mv rest hne hstep

/-- C1.  For a 41x41 grid whose start cell (1,1) is a path cell and a move list of
    at most 500 moves, verify_maze_solution returns true iff some leading segment
    of the moves is a walk from (1,1) made of valid moves (direction 0-3, in
    bounds, landing on path cells) that ends at the goal (39,39); the empty move
    sequence always yields false. -/
theorem replay_reaches_goal_iff (g : Nat → Nat → Nat) (moves : List Nat)
    (hstart : g 1 1 = 1) (hlen : moves.length ≤ 500) :
    (verify_maze_solution moves g 41 1 39 = true ↔
      ∃ p q, moves = p ++ q ∧ specWalk g (1, 1) p = some (39, 39)) ∧
    verify_maze_solution [] g 41 1 39 = false := by
  have hcheck : ¬ (g 1 1 ≠ 1) := by simp [hstart]
  constructor
  · unfold verify_maze_solution
    rw [if_neg hcheck]
    exact verifyMoves_iff g moves 1 1 (by norm_num) (by norm_num) (by norm_num)
  · unfold verify_maze_solution
    rw [if_neg hcheck]
    rfl

/-- A concrete 41x41 grid with a single path cell at the start. -/
def wgrid : Nat → Nat → Nat := fun i j => if i = 1 ∧ j = 1 then 1 else 0

theorem replay_reaches_goal_iff_witness :
    (verify_maze_solution [2] wgrid 41 1 39 = true ↔
      ∃ p q, ([2] : List Nat) = p ++ q ∧ specWalk wgrid (1, 1) p = some (39, 39)) ∧
    verify_maze_solution [] wgrid 41 1 39 = false :=
  replay_reaches_goal_iff wgrid [2] (by norm_num [wgrid]) (by norm_num)

/-! ## Path-verification guest main (after receipt verification) -/

/-- The journal committed by the path-verification guest. -/
structure PathJournal where
  is_valid : Nat
  maze_seed : Nat
deriving DecidableEq

/-- u32::from_le_bytes over the first four journal bytes. -/
def parseSeedLE (bs : List Nat) : Nat :=
  bs.getD 0 0 + 256 * bs.getD 1 0 + 65536 * bs.getD 2 0 + 16777216 * bs.getD 3 0

/-- The body of the path-verify guest main after env::verify of the maze receipt:
    parse the journal (4-byte LE seed, then the 32-byte committed hash), hash the
    untrusted grid bytes with the supplied hash function, and run the checks in
    program order.  moves are read (take/pad into the fixed 500-byte buffer) only
    after the hash, structure, and length checks all pass. -/
def pathVerifyMain (sha : List Nat → List Nat) (mazeJournal gridData : List Nat)
    (moveCount : Nat) (moves : List Nat) : PathJournal :=
  let maze_seed := parseSeedLE mazeJournal
  let committed_hash := mazeJournal.drop 4
  let computed_hash := sha gridData
  if computed_hash ≠ committed_hash then
    ⟨0, maze_seed⟩
  else
    let grid : Nat → Nat → Nat := fun i j => gridData.getD (i * 41 + j) 0
    if grid 1 1 ≠ 1 ∨ grid 39 39 ≠ 1 then
      ⟨0, maze_seed⟩
    else if 500 < moveCount then
      ⟨0, maze_seed⟩
    else
      let ms := (List.range 500).map (fun i => if i < moveCount then moves.getD i 0 else 0)
      ⟨if verify_maze_solution ms grid 41 1 39 then 1 else 0, maze_seed⟩

/-- C3.  If the hash of the supplied grid bytes differs from the committed hash,
    the guest commits PathJournal{is_valid = 0, maze_seed = journal seed}, without
    an error and without the move data influencing anything. -/
theorem commitment_mismatch_rejects (sha : List Nat → List Nat)
    (mazeJournal gridData : List Nat) (n n' : Nat) (moves moves' : List Nat)
    (h : sha gridData ≠ mazeJournal.drop 4) :
    pathVerifyMain sha mazeJournal gridData n moves =
      ⟨0, parseSeedLE mazeJournal⟩ ∧
    pathVerifyMain sha mazeJournal gridData n moves =
      pathVerifyMain sha mazeJournal gridData n' moves' := by
  have hL : pathVerifyMain sha mazeJournal gridData n moves =
      ⟨0, parseSeedLE mazeJournal⟩ := by
    unfold pathVerifyMain; rw [if_pos h]
  have hR : pathVerifyMain sha mazeJournal gridData n' moves' =
      ⟨0, parseSeedLE mazeJournal⟩ := by
    unfold pathVerifyMain; rw [if_pos h]
  exact ⟨hL, hL.trans hR.symm⟩

theorem commitment_mismatch_rejects_witness :
    pathVerifyMain (fun _ => []) [7, 0, 0, 0, 1] [] 3 [0, 1] =
      ⟨0, parseSeedLE [7, 0, 0, 0, 1]⟩ ∧
    pathVerifyMain (fun _ => []) [7, 0, 0, 0, 1] [] 3 [0, 1] =
      pathVerifyMain (fun _ => []) [7, 0, 0, 0, 1] [] 501 [2, 2] :=
  commitment_mismatch_rejects (fun _ => []) [7, 0, 0, 0, 1] [] 3 501 [0, 1] [2, 2]
    (by decide)

/-- C4.  A move count above 500 yields PathJournal{is_valid = 0, journal seed}
    on every path through the guest, independent of the move bytes: the length
    gate fires before any replay. -/
theorem overlong_moves_reject (sha : List Nat → List Nat)
    (mazeJournal gridData : List Nat) (n : Nat) (moves moves' : List Nat)
    (hn : 500 < n) (hn16 : n < 65536) :
    pathVerifyMain sha mazeJournal gridData n moves =
      ⟨0, parseSeedLE mazeJournal⟩ ∧
    pathVerifyMain sha mazeJournal gridData n moves =
      pathVerifyMain sha mazeJournal gridData n moves' := by
  unfold pathVerifyMain
  split_ifs <;> simp_all

theorem overlong_moves_reject_witness :
    pathVerifyMain (fun _ => []) [] [] 501 [1, 1, 2, 2] = ⟨0, parseSeedLE []⟩ ∧
    pathVerifyMain (fun _ => []) [] [] 501 [1, 1, 2, 2] =
      pathVerifyMain (fun _ => []) [] [] 501 [3] :=
  overlong_moves_reject (fun _ => []) [] [] 501 [1, 1, 2, 2] [3]
    (by norm_num) (by norm_num)

/-! ## Maze generator (core/src/maze_gen.rs) -/

def NORTH : Nat := 0
def EAST : Nat := 1
def SOUTH : Nat := 2
def WEST : Nat := 3

/-- A cell: wall flags indexed by direction 0-3, plus a visited flag. -/
structure Cell where
  walls : Nat → Bool
  visited : Bool

/-- Cell::new: all four walls present, not visited. -/
def Cell.new : Cell := ⟨fun _ => true, false⟩

def Cell.clearWall (cell : Cell) (d : Nat) : Cell :=
  { cell with walls := fun i => if i = d then false else cell.walls i }

def Cell.markVisited (cell : Cell) : Cell :=
  { cell with visited := true }

/-- The maze: a cell grid (total function, only indices below rows/cols used)
    plus the dimensions. -/
structure Maze where
  cells : Nat → Nat → Cell
  rows : Nat
  cols : Nat

/-- Pointwise update of one cell of the grid. -/
def updateCell (g : Nat → Nat → Cell) (r c : Nat) (f : Cell → Cell) :
    Nat → Nat → Cell :=
  fun i j => if i = r ∧ j = c then f (g i j) else g i j

/-- usize::wrapping_sub(1). -/
def wrapSub1 (n : Nat) : Nat :=
  if n = 0 then 18446744073709551615 else n - 1

/-- get_unvisited_neighbors: the in-order populated entries of the fixed
    neighbor array, i.e. the direction candidates that pass the bounds and
    unvisited checks. -/
def getUnvisitedNeighbors (m : Maze) (row col : Nat) : List (Nat × Nat × Nat) :=
  [(NORTH, wrapSub1 row, col), (EAST, row, col + 1),
   (SOUTH, row + 1, col), (WEST, row, wrapSub1 col)].filter
    (fun t => t.2.1 < m.rows && t.2.2 < m.cols && !((m.cells t.2.1 t.2.2).visited))

/-- opposite_dir (the Rust match arms; other inputs cannot occur). -/
def oppositeDir (d : Nat) : Nat :=
  if d = NORTH then SOUTH
  else if d = SOUTH then NORTH
  else if d = EAST then WEST
  else if d = WEST then EAST
  else 0

/-- The mutable state of recursive_backtracker: the cell grid, the explicit
    stack (head = top), the current cursor and the RNG state. -/
structure GenState where
  cells : Nat → Nat → Cell
  stack : List (Nat × Nat)
  current : Nat × Nat
  rng : Nat

/-- One iteration of the while-loop body of recursive_backtracker.
    (Identity when the stack is empty: the loop guard has already failed.) -/
def genStep (rows cols : Nat) (s : GenState) : GenState :=
  match s.stack with
  | [] => s
  | popped :: rest =>
    let row := s.current.1
    let col := s.current.2
    let neighbors := getUnvisitedNeighbors ⟨s.cells, rows, cols⟩ row col
    if neighbors.length > 0 then
      let p := SimpleLCG.choice_index neighbors.length s.rng
      let t := neighbors.getD p.1 (0, 0, 0)
      let dir := t.1
      let nr := t.2.1
      let nc := t.2.2
      let cells1 := updateCell s.cells row col (fun cl => cl.clearWall dir)
      let cells2 := updateCell cells1 nr nc (fun cl => cl.clearWall (oppositeDir dir))
      let cells3 := updateCell cells2 nr nc Cell.markVisited
      { cells := cells3, stack := (nr, nc) :: s.stack, current := (nr, nc), rng := p.2 }
    else
      { s with stack := rest, current := popped }

/-- The while-loop, driven by enough fuel; stops as soon as the stack is empty. -/
def genRun (rows cols : Nat) : Nat → GenState → GenState
  | 0, s => s
  | fuel + 1, s => if s.stack = [] then s else genRun rows cols fuel (genStep rows cols s)

/-- The state before the loop: cell (0,0) marked visited and pushed, rng seeded. -/
def initState (seed : Nat) : GenState :=
  { cells := updateCell (fun _ _ => Cell.new) 0 0 Cell.markVisited,
    stack := [(0, 0)],
    current := (0, 0),
    rng := SimpleLCG.new seed }

/-- The state after n loop iterations. -/
def genIter (rows cols seed n : Nat) : GenState :=
  (genStep rows cols)^[n] (initState seed)

/-- Maze::generate.  2 * rows * cols iterations of fuel always suffice
    (theorem genRun_stack_empty below), so this equals the unbounded loop. -/
def Maze.generate (rows cols seed : Nat) : Maze :=
  ⟨(genRun rows cols (2 * rows * cols) (initState seed)).cells, rows, cols⟩

/-- Writes of one cell of to_binary_grid: center, then one passage per
    cleared wall. -/
def gridWrite (g : Nat → Nat → Nat) (i j v : Nat) : Nat → Nat → Nat :=
  fun a b => if a = i ∧ b = j then v else g a b

def writeCell (m : Maze) (row col : Nat) (g : Nat → Nat → Nat) : Nat → Nat → Nat :=
  let cell := m.cells row col
  let gr := row * 2 + 1
  let gc := col * 2 + 1
  let g1 := gridWrite g gr gc 1
  let g2 := if cell.walls NORTH = false then gridWrite g1 (gr - 1) gc 1 else g1
  let g3 := if cell.walls SOUTH = false then gridWrite g2 (gr + 1) gc 1 else g2
  let g4 := if cell.walls EAST = false then gridWrite g3 gr (gc + 1) 1 else g3
  if cell.walls WEST = false then gridWrite g4 gr (gc - 1) 1 else g4

/-- to_binary_grid: row-major loop of cell writes over an all-zero grid. -/
def Maze.toBinaryGrid (m : Maze) : Nat → Nat → Nat :=
  (List.range m.rows).foldl
    (fun g row => (List.range m.cols).foldl (fun g2 col => writeCell m row col g2) g)
    (fun _ _ => 0)

theorem choice_index_fst_lt (len state : Nat) (h : 0 < len) :
    (SimpleLCG.choice_index len state).1 < len := by
  unfold SimpleLCG.choice_index
  have h1 : SimpleLCG.advance state * len % twoPow64 ≤ SimpleLCG.advance state * len :=
    Nat.mod_le _ _
  have h2 : SimpleLCG.advance state ≤ lcgModulus - 1 := by
    have := SimpleLCG.advance_lt state
    omega
  have h3 : SimpleLCG.advance state * len ≤ (lcgModulus - 1) * len :=
    Nat.mul_le_mul_right _ h2
  have h4 : (lcgModulus - 1) * len < lcgModulus * len :=
    (Nat.mul_lt_mul_right h).mpr (by norm_num [lcgModulus])
  rw [Nat.div_lt_iff_lt_mul (by norm_num [lcgModulus] : 0 < lcgModulus)]
  have h5 : lcgModulus * len = len * lcgModulus := Nat.mul_comm _ _
  omega

/-- C10.  choice_index always returns an index below any positive len, so the
    neighbors[idx] access in the generator stays within the populated part of
    the neighbor array (whose length is at most 4). -/
theorem choice_index_within_bounds (state len : Nat) (m : Maze) (row col : Nat)
    (h : 0 < len) :
    (SimpleLCG.choice_index len state).1 < len ∧
    (getUnvisitedNeighbors m row col).length ≤ 4 ∧
    (0 < (getUnvisitedNeighbors m row col).length →
      (SimpleLCG.choice_index (getUnvisitedNeighbors m row col).length state).1 <
        (getUnvisitedNeighbors m row col).length) :=
  ⟨choice_index_fst_lt len state h,
   List.length_filter_le _ _,
   fun h2 => choice_index_fst_lt _ state h2⟩

theorem choice_index_within_bounds_witness :
    (SimpleLCG.choice_index 4 1).1 < 4 ∧
    (getUnvisitedNeighbors ⟨fun _ _ => Cell.new, 1, 1⟩ 0 0).length ≤ 4 ∧
    (0 < (getUnvisitedNeighbors ⟨fun _ _ => Cell.new, 1, 1⟩ 0 0).length →
      (SimpleLCG.choice_index
          (getUnvisitedNeighbors ⟨fun _ _ => Cell.new, 1, 1⟩ 0 0).length 1).1 <
        (getUnvisitedNeighbors ⟨fun _ _ => Cell.new, 1, 1⟩ 0 0).length) :=
  choice_index_within_bounds 1 4 ⟨fun _ _ => Cell.new, 1, 1⟩ 0 0 (by norm_num)

/-- The in-bounds neighbor relation between a cell and the cell one step in
    direction d. -/
def adjacentDir (row col d nr nc : Nat) : Prop :=
  (d = NORTH ∧ row = nr + 1 ∧ nc = col) ∨
  (d = EAST ∧ nr = row ∧ nc = col + 1) ∨
  (d = SOUTH ∧ nr = row + 1 ∧ nc = col) ∨
  (d = WEST ∧ nr = row ∧ col = nc + 1)

theorem mem_neighbors (m : Maze) (row col : Nat) (hrows : m.rows ≤ 20)
    (hcols : m.cols ≤ 20) (t : Nat × Nat × Nat)
    (ht : t ∈ getUnvisitedNeighbors m row col) :
    t.2.1 < m.rows ∧ t.2.2 < m.cols ∧ (m.cells t.2.1 t.2.2).visited = false ∧
    adjacentDir row col t.1 t.2.1 t.2.2 := by
  unfold getUnvisitedNeighbors at ht
  rw [List.mem_filter] at ht
  obtain ⟨hmem, hcond⟩ := ht
  simp only [Bool.and_eq_true, decide_eq_true_eq, Bool.not_eq_true'] at hcond
  obtain ⟨⟨hb1, hb2⟩, hb3⟩ := hcond
  refine ⟨hb1, hb2, hb3, ?_⟩
  simp only [List.mem_cons, List.mem_singleton] at hmem
  unfold adjacentDir
  rcases hmem with h | h | h | h | h
  · -- NORTH entry
    subst h
    dsimp only at hb1 ⊢
    left
    refine ⟨rfl, ?_, rfl⟩
    unfold wrapSub1 at hb1 ⊢
    by_cases h0 : row = 0
    · rw [if_pos h0] at hb1; omega
    · rw [if_neg h0] at hb1 ⊢; omega
  · subst h
    dsimp only
    right; left
    exact ⟨rfl, rfl, rfl⟩
  · subst h
    dsimp only
    right; right; left
    exact ⟨rfl, rfl, rfl⟩
  · -- WEST entry
    subst h
    dsimp only at hb2 ⊢
    right; right; right
    refine ⟨rfl, rfl, ?_⟩
    unfold wrapSub1 at hb2 ⊢
    by_cases h0 : col = 0
    · rw [if_pos h0] at hb2; omega
    · rw [if_neg h0] at hb2 ⊢; omega
  · exact absurd h (by simp)

theorem getD_mem_of_lt {α : Type} (l : List α) (i : Nat) (d : α) (h : i < l.length) :
    l.getD i d ∈ l := by
  rw [List.getD_eq_getElem?_getD, List.getElem?_eq_getElem h]
  exact List.getElem_mem h

theorem genStep_nil (rows cols : Nat) (s : GenState) (h : s.stack = []) :
    genStep rows cols s = s := by
  unfold genStep
  rw [h]

theorem genStep_pop (rows cols : Nat) (s : GenState) (popped : Nat × Nat)
    (rest : List (Nat × Nat)) (hs : s.stack = popped :: rest)
    (hnb : getUnvisitedNeighbors ⟨s.cells, rows, cols⟩ s.current.1 s.current.2 = []) :
    genStep rows cols s = { s with stack := rest, current := popped } := by
  unfold genStep
  rw [hs]
  simp only [hnb, List.length_nil, gt_iff_lt, Nat.lt_irrefl, if_false]

theorem genStep_push (rows cols : Nat) (s : GenState) (hne : s.stack ≠ [])
    (hnb : getUnvisitedNeighbors ⟨s.cells, rows, cols⟩ s.current.1 s.current.2 ≠ []) :
    ∃ t ∈ getUnvisitedNeighbors ⟨s.cells, rows, cols⟩ s.current.1 s.current.2,
      genStep rows cols s =
        { cells := updateCell (updateCell (updateCell s.cells s.current.1 s.current.2
              (fun cl => cl.clearWall t.1)) t.2.1 t.2.2
              (fun cl => cl.clearWall (oppositeDir t.1))) t.2.1 t.2.2 Cell.markVisited,
          stack := (t.2.1, t.2.2) :: s.stack,
          current := (t.2.1, t.2.2),
          rng := (SimpleLCG.choice_index
            (getUnvisitedNeighbors ⟨s.cells, rows, cols⟩ s.current.1 s.current.2).length
            s.rng).2 } := by
  obtain ⟨popped, rest, hs⟩ : ∃ a l, s.stack = a :: l := by
    cases hstack : s.stack with
    | nil => exact absurd hstack hne
    | cons a l => exact ⟨a, l, rfl⟩
  have hlen : 0 < (getUnvisitedNeighbors ⟨s.cells, rows, cols⟩ s.current.1
      s.current.2).length := List.length_pos.mpr hnb
  refine ⟨(getUnvisitedNeighbors ⟨s.cells, rows, cols⟩ s.current.1 s.current.2).getD
      (SimpleLCG.choice_index
        (getUnvisitedNeighbors ⟨s.cells, rows, cols⟩ s.current.1 s.current.2).length
        s.rng).1 (0, 0, 0),
    getD_mem_of_lt _ _ _ (choice_index_fst_lt _ _ hlen), ?_⟩
  unfold genStep
  rw [hs]
  simp only [gt_iff_lt, hlen, if_true]

theorem visited_clearWall_update (g : Nat → Nat → Cell) (a b d i j : Nat) :
    ((updateCell g a b (fun cl => cl.clearWall d)) i j).visited = (g i j).visited := by
  unfold updateCell Cell.clearWall
  split <;> rfl

theorem visited_mark_update (g : Nat → Nat → Cell) (a b i j : Nat) :
    ((updateCell g a b Cell.markVisited) i j).visited =
      (if i = a ∧ j = b then true else (g i j).visited) := by
  unfold updateCell Cell.markVisited
  split <;> rfl

/-- Visiting never unvisits: one loop step preserves the visited flag. -/
theorem genStep_visited_mono (rows cols : Nat) (s : GenState) (p q : Nat)
    (h : (s.cells p q).visited = true) :
    ((genStep rows cols s).cells p q).visited = true := by
  cases hstack : s.stack with
  | nil => rw [genStep_nil rows cols s hstack]; exact h
  | cons popped rest =>
    by_cases hnb : getUnvisitedNeighbors ⟨s.cells, rows, cols⟩ s.current.1 s.current.2 = []
    · rw [genStep_pop rows cols s popped rest hstack hnb]
      exact h
    · obtain ⟨t, _, heq⟩ := genStep_push rows cols s (by rw [hstack]; simp) hnb
      rw [heq]
      simp only [visited_mark_update, visited_clearWall_update]
      split
      · rfl
      · exact h

/-- Run-time invariant of the backtracker state: the stack has no duplicates,
    every stack entry is an in-bounds visited cell, and the cursor is in bounds. -/
def StackInv (rows cols : Nat) (s : GenState) : Prop :=
  s.stack.Nodup ∧
  (∀ p ∈ s.stack, p.1 < rows ∧ p.2 < cols ∧ (s.cells p.1 p.2).visited = true) ∧
  s.current.1 < rows ∧ s.current.2 < cols

theorem StackInv_init (rows cols seed : Nat) (hr : 1 ≤ rows) (hc : 1 ≤ cols) :
    StackInv rows cols (initState seed) := by
  refine ⟨List.nodup_singleton _, ?_, by simpa [initState] using hr, by simpa [initState] using hc⟩
  intro p hp
  simp only [initState, List.mem_singleton] at hp
  subst hp
  refine ⟨by simpa [initState] using hr, by simpa [initState] using hc, ?_⟩
  simp [initState, visited_mark_update]

theorem StackInv_step (rows cols : Nat) (s : GenState) (hrows : rows ≤ 20)
    (hcols : cols ≤ 20) (h : StackInv rows cols s) :
    StackInv rows cols (genStep rows cols s) := by
  obtain ⟨hnd, hent, hcur1, hcur2⟩ := h
  cases hstack : s.stack with
  | nil => rw [genStep_nil rows cols s hstack]; exact ⟨hnd, hent, hcur1, hcur2⟩
  | cons popped rest =>
    by_cases hnb : getUnvisitedNeighbors ⟨s.cells, rows, cols⟩ s.current.1 s.current.2 = []
    · rw [genStep_pop rows cols s popped rest hstack hnb]
      have hpop := hent popped (by rw [hstack]; exact List.mem_cons_self _ _)
      refine ⟨?_, ?_, hpop.1, hpop.2.1⟩
      · have := hnd
        rw [hstack] at this
        exact (List.nodup_cons.mp this).2
      · intro p hp
        exact hent p (by rw [hstack]; exact List.mem_cons_of_mem _ hp)
    · obtain ⟨t, htmem, heq⟩ := genStep_push rows cols s (by rw [hstack]; simp) hnb
      obtain ⟨htb1, htb2, htv, _⟩ :=
        mem_neighbors ⟨s.cells, rows, cols⟩ s.current.1 s.current.2 hrows hcols t htmem
      rw [heq]
      have hnotmem : (t.2.1, t.2.2) ∉ s.stack := by
        intro hmem
        have hvt := (hent _ hmem).2.2
        simp only at hvt
        rw [hvt] at htv
        exact absurd htv (by simp)
      refine ⟨List.nodup_cons.mpr ⟨hnotmem, hnd⟩, ?_, htb1, htb2⟩
      intro p hp
      rcases List.mem_cons.mp hp with hp | hp
      · subst hp
        refine ⟨htb1, htb2, ?_⟩
        simp [visited_mark_update]
      · obtain ⟨h1, h2, h3⟩ := hent p hp
        refine ⟨h1, h2, ?_⟩
        simp only [visited_mark_update, visited_clearWall_update]
        split
        · rfl
        · exact h3

/-- The number of visited in-bounds cells. -/
def visitedCount (rows cols : Nat) (cells : Nat → Nat → Cell) : Nat :=
  (((Finset.range rows) ×ˢ (Finset.range cols)).filter
    (fun p => (cells p.1 p.2).visited = true)).card

theorem visitedCount_le (rows cols : Nat) (cells : Nat → Nat → Cell) :
    visitedCount rows cols cells ≤ rows * cols := by
  unfold visitedCount
  calc (((Finset.range rows) ×ˢ (Finset.range cols)).filter
        (fun p => (cells p.1 p.2).visited = true)).card
      ≤ ((Finset.range rows) ×ˢ (Finset.range cols)).card := Finset.card_filter_le _ _
    _ = rows * cols := by rw [Finset.card_product, Finset.card_range, Finset.card_range]

theorem length_le_visitedCount (rows cols : Nat) (s : GenState)
    (h : StackInv rows cols s) : s.stack.length ≤ visitedCount rows cols s.cells := by
  classical
  obtain ⟨hnd, hent, _⟩ := h
  have hsub : s.stack.toFinset ⊆
      ((Finset.range rows) ×ˢ (Finset.range cols)).filter
        (fun p => (s.cells p.1 p.2).visited = true) := by
    intro p hp
    rw [List.mem_toFinset] at hp
    obtain ⟨h1, h2, h3⟩ := hent p hp
    rw [Finset.mem_filter, Finset.mem_product, Finset.mem_range, Finset.mem_range]
    exact ⟨⟨h1, h2⟩, h3⟩
  calc s.stack.length = s.stack.toFinset.card := (List.toFinset_card_of_nodup hnd).symm
    _ ≤ _ := Finset.card_le_card hsub

theorem visitedCount_clearWall (rows cols : Nat) (g : Nat → Nat → Cell)
    (a b d : Nat) :
    visitedCount rows cols (updateCell g a b (fun cl => cl.clearWall d)) =
      visitedCount rows cols g := by
  unfold visitedCount
  congr 1
  apply Finset.filter_congr
  intro p _
  rw [visited_clearWall_update]

theorem visitedCount_mark (rows cols : Nat) (g : Nat → Nat → Cell) (nr nc : Nat)
    (hb1 : nr < rows) (hb2 : nc < cols) (hv : (g nr nc).visited = false) :
    visitedCount rows cols (updateCell g nr nc Cell.markVisited) =
      visitedCount rows cols g + 1 := by
  classical
  unfold visitedCount
  have hset : ((Finset.range rows) ×ˢ (Finset.range cols)).filter
      (fun p => ((updateCell g nr nc Cell.markVisited) p.1 p.2).visited = true) =
      insert (nr, nc) (((Finset.range rows) ×ˢ (Finset.range cols)).filter
        (fun p => (g p.1 p.2).visited = true)) := by
    ext p
    rw [Finset.mem_insert, Finset.mem_filter, Finset.mem_filter]
    constructor
    · rintro ⟨hmem, hval⟩
      rw [visited_mark_update] at hval
      by_cases hp : p.1 = nr ∧ p.2 = nc
      · left
        obtain ⟨e1, e2⟩ := hp
        exact Prod.ext e1 e2
      · right
        rw [if_neg hp] at hval
        exact ⟨hmem, hval⟩
    · rintro (hp | ⟨hmem, hval⟩)
      · subst hp
        refine ⟨?_, ?_⟩
        · rw [Finset.mem_product, Finset.mem_range, Finset.mem_range]
          exact ⟨hb1, hb2⟩
        · rw [visited_mark_update]
          simp
      · refine ⟨hmem, ?_⟩
        rw [visited_mark_update]
        split
        · rfl
        · exact hval
  rw [hset, Finset.card_insert_of_not_mem]
  rw [Finset.mem_filter]
  rintro ⟨-, hval⟩
  rw [hv] at hval
  exact absurd hval (by simp)

/-- Loop measure: twice the number of unvisited cells plus the stack length. -/
def genMeasure (rows cols : Nat) (s : GenState) : Nat :=
  2 * (rows * cols - visitedCount rows cols s.cells) + s.stack.length

theorem genMeasure_decreases (rows cols : Nat) (s : GenState) (hrows : rows ≤ 20)
    (hcols : cols ≤ 20) (hne : s.stack ≠ []) :
    genMeasure rows cols (genStep rows cols s) < genMeasure rows cols s := by
  obtain ⟨popped, rest, hs⟩ : ∃ a l, s.stack = a :: l := by
    cases hstack : s.stack with
    | nil => exact absurd hstack hne
    | cons a l => exact ⟨a, l, rfl⟩
  by_cases hnb : getUnvisitedNeighbors ⟨s.cells, rows, cols⟩ s.current.1 s.current.2 = []
  · rw [genStep_pop rows cols s popped rest hs hnb]
    unfold genMeasure
    simp only [hs, List.length_cons]
    omega
  · obtain ⟨t, htmem, heq⟩ := genStep_push rows cols s hne hnb
    obtain ⟨htb1, htb2, htv, _⟩ :=
      mem_neighbors ⟨s.cells, rows, cols⟩ s.current.1 s.current.2 hrows hcols t htmem
    rw [heq]
    unfold genMeasure
    simp only [List.length_cons]
    have hv2 : ((updateCell (updateCell s.cells s.current.1 s.current.2
        (fun cl => cl.clearWall t.1)) t.2.1 t.2.2
        (fun cl => cl.clearWall (oppositeDir t.1))) t.2.1 t.2.2).visited = false := by
      rw [visited_clearWall_update, visited_clearWall_update]
      exact htv
    rw [visitedCount_mark rows cols _ t.2.1 t.2.2 htb1 htb2 hv2,
      visitedCount_clearWall, visitedCount_clearWall]
    have hle : visitedCount rows cols s.cells + 1 ≤ rows * cols := by
      have := visitedCount_le rows cols
        (updateCell (updateCell (updateCell s.cells s.current.1 s.current.2
          (fun cl => cl.clearWall t.1)) t.2.1 t.2.2
          (fun cl => cl.clearWall (oppositeDir t.1))) t.2.1 t.2.2 Cell.markVisited)
      rw [visitedCount_mark rows cols _ t.2.1 t.2.2 htb1 htb2 hv2,
        visitedCount_clearWall, visitedCount_clearWall] at this
      exact this
    omega

theorem genRun_empty_of_fuel (rows cols : Nat) (hrows : rows ≤ 20) (hcols : cols ≤ 20) :
    ∀ (fuel : Nat) (s : GenState), genMeasure rows cols s ≤ fuel →
      (genRun rows cols fuel s).stack = [] := by
  intro fuel
  induction fuel with
  | zero =>
    intro s hm
    unfold genMeasure at hm
    have : s.stack.length = 0 := by omega
    rw [List.length_eq_zero] at this
    simpa [genRun] using this
  | succ fuel ih =>
    intro s hm
    unfold genRun
    by_cases hs : s.stack = []
    · rw [if_pos hs]; exact hs
    · rw [if_neg hs]
      apply ih
      have := genMeasure_decreases rows cols s hrows hcols hs
      omega

theorem genIter_zero (rows cols seed : Nat) :
    genIter rows cols seed 0 = initState seed := rfl

theorem genIter_succ (rows cols seed n : Nat) :
    genIter rows cols seed (n + 1) = genStep rows cols (genIter rows cols seed n) :=
  Function.iterate_succ_apply' _ _ _

theorem StackInv_iter (rows cols seed : Nat) (hr1 : 1 ≤ rows) (hr2 : rows ≤ 20)
    (hc1 : 1 ≤ cols) (hc2 : cols ≤ 20) :
    ∀ n, StackInv rows cols (genIter rows cols seed n) := by
  intro n
  induction n with
  | zero => rw [genIter_zero]; exact StackInv_init rows cols seed hr1 hc1
  | succ n ih => rw [genIter_succ]; exact StackInv_step rows cols _ hr2 hc2 ih

theorem visited_mono_iter (rows cols seed p q m : Nat) :
    ∀ n, m ≤ n → ((genIter rows cols seed m).cells p q).visited = true →
    ((genIter rows cols seed n).cells p q).visited = true := by
  intro n
  induction n with
  | zero =>
    intro hmn h
    have : m = 0 := by omega
    subst this
    exact h
  | succ n ih =>
    intro hmn h
    by_cases hm : m = n + 1
    · subst hm; exact h
    · rw [genIter_succ]
      exact genStep_visited_mono rows cols _ p q (ih (by omega) h)

theorem visitedCount_base (rows cols : Nat) :
    visitedCount rows cols (fun _ _ => Cell.new) = 0 := by
  simp [visitedCount, Cell.new]

theorem genMeasure_init (rows cols seed : Nat) (hr : 1 ≤ rows) (hc : 1 ≤ cols) :
    genMeasure rows cols (initState seed) ≤ 2 * rows * cols := by
  unfold genMeasure initState
  simp only [List.length_singleton]
  rw [visitedCount_mark rows cols _ 0 0 (by omega) (by omega) rfl, visitedCount_base]
  have h1 : 1 * 1 ≤ rows * cols := Nat.mul_le_mul hr hc
  have h2 : 2 * rows * cols = 2 * (rows * cols) := by ring
  omega

/-- C9.  At every point of the generation loop the stack has no duplicate cells
    and its length is at most rows*cols (hence at most the fixed capacity 400);
    every push is of a cell that was never on the stack at any earlier time;
    and 2*rows*cols loop iterations always empty the stack, so the loop ends. -/
theorem stack_discipline (rows cols seed : Nat) (hr1 : 1 ≤ rows) (hr2 : rows ≤ 20)
    (hc1 : 1 ≤ cols) (hc2 : cols ≤ 20) :
    (∀ n, (genIter rows cols seed n).stack.Nodup ∧
      (genIter rows cols seed n).stack.length ≤ rows * cols ∧
      (genIter rows cols seed n).stack.length ≤ 400) ∧
    (∀ n q, (genIter rows cols seed (n + 1)).stack =
        q :: (genIter rows cols seed n).stack →
      ∀ m, m ≤ n → q ∉ (genIter rows cols seed m).stack) ∧
    (genRun rows cols (2 * rows * cols) (initState seed)).stack = [] := by
  refine ⟨?_, ?_, ?_⟩
  · intro n
    have hinv := StackInv_iter rows cols seed hr1 hr2 hc1 hc2 n
    have hlen : (genIter rows cols seed n).stack.length ≤ rows * cols :=
      (length_le_visitedCount rows cols _ hinv).trans (visitedCount_le rows cols _)
    refine ⟨hinv.1, hlen, hlen.trans ?_⟩
    calc rows * cols ≤ 20 * 20 := Nat.mul_le_mul hr2 hc2
      _ = 400 := by norm_num
  · intro n q hpush m hmn
    set sn := genIter rows cols seed n with hsn
    by_cases hstack : sn.stack = []
    · rw [genIter_succ, ← hsn, genStep_nil rows cols sn hstack, hstack] at hpush
      exact absurd hpush (by simp)
    · by_cases hnb : getUnvisitedNeighbors ⟨sn.cells, rows, cols⟩
          sn.current.1 sn.current.2 = []
      · obtain ⟨popped, rest, hs⟩ : ∃ a l, sn.stack = a :: l := by
          cases hst : sn.stack with
          | nil => exact absurd hst hstack
          | cons a l => exact ⟨a, l, rfl⟩
        rw [genIter_succ, ← hsn, genStep_pop rows cols sn popped rest hs hnb] at hpush
        have := congrArg List.length hpush
        simp only [hs, List.length_cons] at this
        omega
      · obtain ⟨t, htmem, heq⟩ := genStep_push rows cols sn hstack hnb
        rw [genIter_succ, ← hsn, heq] at hpush
        simp only [List.cons.injEq] at hpush
        obtain ⟨hq, -⟩ := hpush
        subst hq
        have htv := (mem_neighbors ⟨sn.cells, rows, cols⟩ sn.current.1 sn.current.2
          hr2 hc2 t htmem).2.2.1
        intro hmem
        have hv := ((StackInv_iter rows cols seed hr1 hr2 hc1 hc2 m).2.1 _ hmem).2.2
        have hvn := visited_mono_iter rows cols seed t.2.1 t.2.2 m n hmn hv
        rw [← hsn] at hvn
        simp only at hvn htv
        rw [hvn] at htv
        exact absurd htv (by simp)
  · exact genRun_empty_of_fuel rows cols hr2 hc2 _ _
      (genMeasure_init rows cols seed hr1 hc1)

theorem stack_discipline_witness :
    ((genIter 2 2 1 3).stack.Nodup ∧
      (genIter 2 2 1 3).stack.length ≤ 2 * 2 ∧
      (genIter 2 2 1 3).stack.length ≤ 400) ∧
    (genRun 2 2 (2 * 2 * 2) (initState 1)).stack = [] :=
  ⟨(stack_discipline 2 2 1 (by norm_num) (by norm_num) (by norm_num)
      (by norm_num)).1 3,
   (stack_discipline 2 2 1 (by norm_num) (by norm_num) (by norm_num)
      (by norm_num)).2.2⟩

/-- C2 counterexample: on the 1x2 maze with seed 1, iteration 3 of the loop is a
    pop iteration (no unvisited neighbors, stack nonempty) in which the popped
    value differs from the current cell, so the cursor does change. -/
theorem pop_changes_current_counterexample :
    (getUnvisitedNeighbors ⟨(genIter 1 2 1 2).cells, 1, 2⟩
        (genIter 1 2 1 2).current.1 (genIter 1 2 1 2).current.2).length = 0 ∧
    (genIter 1 2 1 2).stack ≠ [] ∧
    (genIter 1 2 1 2).current = (0, 1) ∧
    (genStep 1 2 (genIter 1 2 1 2)).current = (0, 0) ∧
    (genStep 1 2 (genIter 1 2 1 2)).current ≠ (genIter 1 2 1 2).current := by
  decide

/-- C2 amended: in a pop iteration the popped value equals the already-current
    cell exactly when the current cell is on top of the stack; that holds at the
    first pop of every backtracking run, because the start state and every push
    leave the cursor on top, but at later pops of a run the popped value is the
    next element down and the cursor moves to it. -/
theorem pop_preserves_current_iff_top (rows cols : Nat) (s : GenState)
    (htop : s.stack.head? = some s.current)
    (hnb : getUnvisitedNeighbors ⟨s.cells, rows, cols⟩ s.current.1 s.current.2 = []) :
    (genStep rows cols s).current = s.current ∧
    (genStep rows cols s).stack = s.stack.tail ∧
    (∀ s2 : GenState, s2.stack ≠ [] →
      getUnvisitedNeighbors ⟨s2.cells, rows, cols⟩ s2.current.1 s2.current.2 ≠ [] →
      (genStep rows cols s2).stack.head? = some (genStep rows cols s2).current) ∧
    (∀ seed : Nat, (initState seed).stack.head? = some (initState seed).current) := by
  obtain ⟨tail, hs⟩ : ∃ l, s.stack = s.current :: l := by
    cases hst : s.stack with
    | nil => rw [hst] at htop; exact absurd htop (by simp)
    | cons a l =>
      rw [hst] at htop
      simp only [List.head?_cons, Option.some.injEq] at htop
      exact ⟨l, by rw [htop]⟩
  refine ⟨?_, ?_, ?_, ?_⟩
  · rw [genStep_pop rows cols s s.current tail hs hnb]
  · rw [genStep_pop rows cols s s.current tail hs hnb, hs]
    rfl
  · intro s2 hne2 hnb2
    obtain ⟨t, _, heq⟩ := genStep_push rows cols s2 hne2 hnb2
    rw [heq]
    rfl
  · intro seed
    rfl

theorem pop_preserves_current_iff_top_witness :
    (genStep 1 2 (genIter 1 2 1 1)).current = (genIter 1 2 1 1).current ∧
    (genStep 1 2 (genIter 1 2 1 1)).stack = (genIter 1 2 1 1).stack.tail ∧
    (initState 7).stack.head? = some (initState 7).current :=
  ⟨(pop_preserves_current_iff_top 1 2 (genIter 1 2 1 1) (by decide) (by decide)).1,
   (pop_preserves_current_iff_top 1 2 (genIter 1 2 1 1) (by decide) (by decide)).2.1,
   (pop_preserves_current_iff_top 1 2 (genIter 1 2 1 1) (by decide)
     (by decide)).2.2.2 7⟩

/-- The set of grid positions that the to_binary_grid loop body for cell
    (row, col) writes (all writes store 1). -/
def cellWrites (m : Maze) (row col i j : Nat) : Prop :=
  (i = row * 2 + 1 ∧ j = col * 2 + 1) ∨
  ((m.cells row col).walls NORTH = false ∧ i = row * 2 ∧ j = col * 2 + 1) ∨
  ((m.cells row col).walls SOUTH = false ∧ i = row * 2 + 2 ∧ j = col * 2 + 1) ∨
  ((m.cells row col).walls EAST = false ∧ i = row * 2 + 1 ∧ j = col * 2 + 2) ∨
  ((m.cells row col).walls WEST = false ∧ i = row * 2 + 1 ∧ j = col * 2)

instance cellWritesDecidable (m : Maze) (row col i j : Nat) :
    Decidable (cellWrites m row col i j) := by
  unfold cellWrites
  infer_instance

theorem condWrite_apply (P : Prop) [Decidable P] (g : Nat → Nat → Nat)
    (a b i j : Nat) :
    (if P then gridWrite g a b 1 else g) i j =
      if P ∧ i = a ∧ j = b then 1 else g i j := by
  by_cases hp : P
  · rw [if_pos hp]
    unfold gridWrite
    by_cases hab : i = a ∧ j = b
    · rw [if_pos hab, if_pos ⟨hp, hab⟩]
    · rw [if_neg hab, if_neg (by tauto)]
  · rw [if_neg hp, if_neg (by tauto)]

theorem writeCell_apply (m : Maze) (row col : Nat) (g : Nat → Nat → Nat) (i j : Nat) :
    writeCell m row col g i j = if cellWrites m row col i j then 1 else g i j := by
  unfold writeCell
  rw [condWrite_apply, condWrite_apply, condWrite_apply, condWrite_apply]
  have hcenter : gridWrite g (row * 2 + 1) (col * 2 + 1) 1 i j =
      if i = row * 2 + 1 ∧ j = col * 2 + 1 then 1 else g i j := rfl
  rw [hcenter]
  unfold cellWrites
  split_ifs <;>
    simp_all [show (∀ x : Nat, x * 2 + 1 + 1 = x * 2 + 2) from fun x => rfl]
  tauto

theorem foldl_writeRow_apply (m : Maze) (row : Nat) (L : List Nat)
    (g : Nat → Nat → Nat) (i j : Nat) :
    (L.foldl (fun g2 col => writeCell m row col g2) g) i j =
      if ∃ col ∈ L, cellWrites m row col i j then 1 else g i j := by
  induction L generalizing g with
  | nil => simp
  | cons c L ih =>
    rw [List.foldl_cons, ih]
    by_cases hL : ∃ col ∈ L, cellWrites m row col i j
    · rw [if_pos hL, if_pos (by obtain ⟨col, h1, h2⟩ := hL; exact ⟨col, List.mem_cons_of_mem _ h1, h2⟩)]
    · rw [if_neg hL, writeCell_apply]
      by_cases hc : cellWrites m row c i j
      · rw [if_pos hc, if_pos ⟨c, List.mem_cons_self _ _, hc⟩]
      · rw [if_neg hc, if_neg ?_]
        rintro ⟨col, hmem, hcw⟩
        rcases List.mem_cons.mp hmem with h | h
        · subst h; exact hc hcw
        · exact hL ⟨col, h, hcw⟩

theorem toBinaryGrid_apply (m : Maze) (i j : Nat) :
    m.toBinaryGrid i j =
      if ∃ row < m.rows, ∃ col < m.cols, cellWrites m row col i j then 1 else 0 := by
  unfold Maze.toBinaryGrid
  have hgen : ∀ (L : List Nat) (g : Nat → Nat → Nat),
      (L.foldl (fun g2 row => (List.range m.cols).foldl
        (fun g3 col => writeCell m row col g3) g2) g) i j =
      if ∃ row ∈ L, ∃ col < m.cols, cellWrites m row col i j then 1 else g i j := by
    intro L
    induction L with
    | nil => intro g; simp
    | cons r L ih =>
      intro g
      rw [List.foldl_cons, ih]
      by_cases hL : ∃ row ∈ L, ∃ col < m.cols, cellWrites m row col i j
      · rw [if_pos hL, if_pos
          (by obtain ⟨row, h1, h2⟩ := hL; exact ⟨row, List.mem_cons_of_mem _ h1, h2⟩)]
      · rw [if_neg hL, foldl_writeRow_apply]
        by_cases hr : ∃ col ∈ List.range m.cols, cellWrites m r col i j
        · rw [if_pos hr]
          obtain ⟨col, hcm, hcw⟩ := hr
          rw [if_pos ⟨r, List.mem_cons_self _ _, col, List.mem_range.mp hcm, hcw⟩]
        · rw [if_neg hr, if_neg ?_]
          rintro ⟨row, hmem, col, hcl, hcw⟩
          rcases List.mem_cons.mp hmem with h | h
          · subst h; exact hr ⟨col, List.mem_range.mpr hcl, hcw⟩
          · exact hL ⟨row, h, col, hcl, hcw⟩
  rw [hgen]
  by_cases h : ∃ row ∈ List.range m.rows, ∃ col < m.cols, cellWrites m row col i j
  · rw [if_pos h]
    obtain ⟨row, hrm, rest⟩ := h
    rw [if_pos ⟨row, List.mem_range.mp hrm, rest⟩]
  · rw [if_neg h, if_neg ?_]
    rintro ⟨row, hrl, rest⟩
    exact h ⟨row, List.mem_range.mpr hrl, rest⟩

theorem walls_mark_update (g : Nat → Nat → Cell) (a b i j : Nat) :
    ((updateCell g a b Cell.markVisited) i j).walls = (g i j).walls := by
  unfold updateCell Cell.markVisited
  split <;> rfl

theorem walls_clearWall_update (g : Nat → Nat → Cell) (a b d i j e : Nat) :
    ((updateCell g a b (fun cl => cl.clearWall d)) i j).walls e =
      if (i = a ∧ j = b) ∧ e = d then false else (g i j).walls e := by
  unfold updateCell Cell.clearWall
  by_cases h1 : i = a ∧ j = b
  · rw [if_pos h1]
    dsimp only
    by_cases h2 : e = d
    · rw [if_pos h2, if_pos ⟨h1, h2⟩]
    · rw [if_neg h2, if_neg (by tauto)]
  · rw [if_neg h1, if_neg (by tauto)]

/-- Cleared walls of in-bounds cells always face an in-bounds neighbor. -/
def WallsOK (rows cols : Nat) (cells : Nat → Nat → Cell) : Prop :=
  ∀ r c d, r < rows → c < cols → (cells r c).walls d = false →
    (d = NORTH ∧ 1 ≤ r) ∨ (d = EAST ∧ c + 1 < cols) ∨
    (d = SOUTH ∧ r + 1 < rows) ∨ (d = WEST ∧ 1 ≤ c)

theorem WallsOK_init (rows cols seed : Nat) :
    WallsOK rows cols (initState seed).cells := by
  intro r c d hr hc hf
  rw [show (initState seed).cells =
      updateCell (fun _ _ => Cell.new) 0 0 Cell.markVisited from rfl,
    walls_mark_update] at hf
  exact absurd hf (by simp [Cell.new])

theorem WallsOK_step (rows cols : Nat) (s : GenState) (hrows : rows ≤ 20)
    (hcols : cols ≤ 20) (hinv : StackInv rows cols s)
    (hw : WallsOK rows cols s.cells) :
    WallsOK rows cols (genStep rows cols s).cells := by
  cases hstack : s.stack with
  | nil => rw [genStep_nil rows cols s hstack]; exact hw
  | cons popped rest =>
    by_cases hnb : getUnvisitedNeighbors ⟨s.cells, rows, cols⟩
        s.current.1 s.current.2 = []
    · rw [genStep_pop rows cols s popped rest hstack hnb]
      exact hw
    · obtain ⟨t, htmem, heq⟩ := genStep_push rows cols s (by rw [hstack]; simp) hnb
      obtain ⟨htb1, htb2, htv, hadj⟩ :=
        mem_neighbors ⟨s.cells, rows, cols⟩ s.current.1 s.current.2 hrows hcols t htmem
      obtain ⟨-, -, hcur1, hcur2⟩ := hinv
      rw [heq]
      intro r c d hr hc hf
      simp only at hf
      rw [walls_mark_update, walls_clearWall_update, walls_clearWall_update] at hf
      by_cases hA : (r = t.2.1 ∧ c = t.2.2) ∧ d = oppositeDir t.1
      · obtain ⟨⟨e1, e2⟩, e3⟩ := hA
        subst e1; subst e2; subst e3
        unfold adjacentDir at hadj
        simp only at hadj htb1 htb2 hcur1 hcur2
        rcases hadj with ⟨hd, h1, h2⟩ | ⟨hd, h1, h2⟩ | ⟨hd, h1, h2⟩ | ⟨hd, h1, h2⟩
        · rw [hd, show oppositeDir NORTH = SOUTH from rfl]
          right; right; left
          exact ⟨rfl, by omega⟩
        · rw [hd, show oppositeDir EAST = WEST from rfl]
          right; right; right
          exact ⟨rfl, by omega⟩
        · rw [hd, show oppositeDir SOUTH = NORTH from rfl]
          left
          exact ⟨rfl, by omega⟩
        · rw [hd, show oppositeDir WEST = EAST from rfl]
          right; left
          exact ⟨rfl, by omega⟩
      · rw [if_neg hA] at hf
        by_cases hB : (r = s.current.1 ∧ c = s.current.2) ∧ d = t.1
        · obtain ⟨⟨e1, e2⟩, e3⟩ := hB
          subst e1; subst e2; subst e3
          unfold adjacentDir at hadj
          simp only at hadj htb1 htb2
          rcases hadj with ⟨hd, h1, h2⟩ | ⟨hd, h1, h2⟩ | ⟨hd, h1, h2⟩ | ⟨hd, h1, h2⟩
          · rw [hd]
            left
            exact ⟨rfl, by omega⟩
          · rw [hd]
            right; left
            exact ⟨rfl, by omega⟩
          · rw [hd]
            right; right; left
            exact ⟨rfl, by omega⟩
          · rw [hd]
            right; right; right
            exact ⟨rfl, by omega⟩
        · rw [if_neg hB] at hf
          exact hw r c d hr hc hf

theorem WallsOK_iter (rows cols seed : Nat) (hr1 : 1 ≤ rows) (hr2 : rows ≤ 20)
    (hc1 : 1 ≤ cols) (hc2 : cols ≤ 20) :
    ∀ n, WallsOK rows cols (genIter rows cols seed n).cells := by
  intro n
  induction n with
  | zero => rw [genIter_zero]; exact WallsOK_init rows cols seed
  | succ n ih =>
    rw [genIter_succ]
    exact WallsOK_step rows cols _ hr2 hc2
      (StackInv_iter rows cols seed hr1 hr2 hc1 hc2 n) ih

theorem iterate_of_empty (rows cols : Nat) (s : GenState) (h : s.stack = []) :
    ∀ n, (genStep rows cols)^[n] s = s := by
  intro n
  induction n with
  | zero => rfl
  | succ n ih =>
    rw [Function.iterate_succ_apply, genStep_nil rows cols s h]
    exact ih

theorem genRun_eq_iter (rows cols : Nat) :
    ∀ (fuel : Nat) (s : GenState),
      genRun rows cols fuel s = (genStep rows cols)^[fuel] s := by
  intro fuel
  induction fuel with
  | zero => intro s; rfl
  | succ fuel ih =>
    intro s
    unfold genRun
    by_cases hs : s.stack = []
    · rw [if_pos hs, iterate_of_empty rows cols s hs]
    · rw [if_neg hs, ih, Function.iterate_succ_apply]

theorem generate_cells_eq (rows cols seed : Nat) :
    (Maze.generate rows cols seed).cells =
      (genIter rows cols seed (2 * rows * cols)).cells := by
  unfold Maze.generate genIter
  rw [genRun_eq_iter]

/-- The grid position one step from the center of cell (r, c) toward the
    neighbor in direction d. -/
def passagePos (r c d : Nat) : Nat × Nat :=
  if d = NORTH then (r * 2, c * 2 + 1)
  else if d = SOUTH then (r * 2 + 2, c * 2 + 1)
  else if d = EAST then (r * 2 + 1, c * 2 + 2)
  else (r * 2 + 1, c * 2)

/-- C7.  In the canonical grid of a generated maze, a position holds 1 exactly
    when it is the center (2r+1, 2c+1) of a maze cell or the passage position
    one step from a center toward an in-bounds neighbor whose separating wall
    was cleared; every other position (the outer border included) holds 0. -/
theorem binary_grid_characterization (rows cols seed i j : Nat)
    (hr1 : 1 ≤ rows) (hr2 : rows ≤ 20) (hc1 : 1 ≤ cols) (hc2 : cols ≤ 20)
    (hi : i < 41) (hj : j < 41) :
    ((Maze.generate rows cols seed).toBinaryGrid i j = 1 ↔
      (∃ r c, r < rows ∧ c < cols ∧ i = r * 2 + 1 ∧ j = c * 2 + 1) ∨
      (∃ r c d nr nc, r < rows ∧ c < cols ∧
        ((Maze.generate rows cols seed).cells r c).walls d = false ∧
        adjacentDir r c d nr nc ∧ nr < rows ∧ nc < cols ∧
        (i, j) = passagePos r c d)) ∧
    ((Maze.generate rows cols seed).toBinaryGrid i j = 0 ∨
      (Maze.generate rows cols seed).toBinaryGrid i j = 1) := by
  have hwalls : WallsOK rows cols (Maze.generate rows cols seed).cells := by
    rw [generate_cells_eq]
    exact WallsOK_iter rows cols seed hr1 hr2 hc1 hc2 _
  have hrows_eq : (Maze.generate rows cols seed).rows = rows := rfl
  have hcols_eq : (Maze.generate rows cols seed).cols = cols := rfl
  constructor
  · rw [toBinaryGrid_apply, hrows_eq, hcols_eq]
    constructor
    · intro h1
      have hex : ∃ row < rows, ∃ col < cols,
          cellWrites (Maze.generate rows cols seed) row col i j := by
        by_contra hno
        rw [if_neg hno] at h1
        exact absurd h1 (by norm_num)
      obtain ⟨r, hr, c, hc, hcw⟩ := hex
      unfold cellWrites at hcw
      rcases hcw with ⟨e1, e2⟩ | ⟨hf, e1, e2⟩ | ⟨hf, e1, e2⟩ | ⟨hf, e1, e2⟩ | ⟨hf, e1, e2⟩
      · exact Or.inl ⟨r, c, hr, hc, e1, e2⟩
      · -- north passage
        rcases hwalls r c NORTH hr hc hf with ⟨-, hb⟩ | ⟨hd, -⟩ | ⟨hd, -⟩ | ⟨hd, -⟩
        · refine Or.inr ⟨r, c, NORTH, r - 1, c, hr, hc, hf, ?_, by omega, hc, ?_⟩
          · unfold adjacentDir
            left
            exact ⟨rfl, by omega, rfl⟩
          · rw [passagePos, if_pos rfl, e1, e2]
        · exact absurd hd (by norm_num [EAST, NORTH])
        · exact absurd hd (by norm_num [SOUTH, NORTH])
        · exact absurd hd (by norm_num [WEST, NORTH])
      · -- south passage
        rcases hwalls r c SOUTH hr hc hf with ⟨hd, -⟩ | ⟨hd, -⟩ | ⟨-, hb⟩ | ⟨hd, -⟩
        · exact absurd hd (by norm_num [SOUTH, NORTH])
        · exact absurd hd (by norm_num [SOUTH, EAST])
        · refine Or.inr ⟨r, c, SOUTH, r + 1, c, hr, hc, hf, ?_, hb, hc, ?_⟩
          · unfold adjacentDir
            right; right; left
            exact ⟨rfl, rfl, rfl⟩
          · rw [passagePos, if_neg (by norm_num [SOUTH, NORTH]), if_pos rfl, e1, e2]
        · exact absurd hd (by norm_num [SOUTH, WEST])
      · -- east passage
        rcases hwalls r c EAST hr hc hf with ⟨hd, -⟩ | ⟨-, hb⟩ | ⟨hd, -⟩ | ⟨hd, -⟩
        · exact absurd hd (by norm_num [EAST, NORTH])
        · refine Or.inr ⟨r, c, EAST, r, c + 1, hr, hc, hf, ?_, hr, hb, ?_⟩
          · unfold adjacentDir
            right; left
            exact ⟨rfl, rfl, rfl⟩
          · rw [passagePos, if_neg (by norm_num [EAST, NORTH]),
              if_neg (by norm_num [EAST, SOUTH]), if_pos rfl, e1, e2]
        · exact absurd hd (by norm_num [EAST, SOUTH])
        · exact absurd hd (by norm_num [EAST, WEST])
      · -- west passage
        rcases hwalls r c WEST hr hc hf with ⟨hd, -⟩ | ⟨hd, -⟩ | ⟨hd, -⟩ | ⟨-, hb⟩
        · exact absurd hd (by norm_num [WEST, NORTH])
        · exact absurd hd (by norm_num [WEST, EAST])
        · exact absurd hd (by norm_num [WEST, SOUTH])
        · refine Or.inr ⟨r, c, WEST, r, c - 1, hr, hc, hf, ?_, hr, by omega, ?_⟩
          · unfold adjacentDir
            right; right; right
            exact ⟨rfl, rfl, by omega⟩
          · rw [passagePos, if_neg (by norm_num [WEST, NORTH]),
              if_neg (by norm_num [WEST, SOUTH]), if_neg (by norm_num [WEST, EAST]),
              e1, e2]
    · intro h1
      have hex : ∃ row < rows, ∃ col < cols,
          cellWrites (Maze.generate rows cols seed) row col i j := by
        rcases h1 with ⟨r, c, hr, hc, e1, e2⟩ | ⟨r, c, d, nr, nc, hr, hc, hf, hadj, hnr, hnc, hpp⟩
        · exact ⟨r, hr, c, hc, Or.inl ⟨e1, e2⟩⟩
        · refine ⟨r, hr, c, hc, ?_⟩
          unfold cellWrites
          unfold adjacentDir at hadj
          rcases hadj with ⟨hd, h1, h2⟩ | ⟨hd, h1, h2⟩ | ⟨hd, h1, h2⟩ | ⟨hd, h1, h2⟩
          · subst hd
            rw [passagePos, if_pos rfl] at hpp
            simp only [Prod.mk.injEq] at hpp
            exact Or.inr (Or.inl ⟨hf, hpp.1, hpp.2⟩)
          · subst hd
            rw [passagePos, if_neg (by norm_num [EAST, NORTH]),
              if_neg (by norm_num [EAST, SOUTH]), if_pos rfl] at hpp
            simp only [Prod.mk.injEq] at hpp
            exact Or.inr (Or.inr (Or.inr (Or.inl ⟨hf, hpp.1, hpp.2⟩)))
          · subst hd
            rw [passagePos, if_neg (by norm_num [SOUTH, NORTH]), if_pos rfl] at hpp
            simp only [Prod.mk.injEq] at hpp
            exact Or.inr (Or.inr (Or.inl ⟨hf, hpp.1, hpp.2⟩))
          · subst hd
            rw [passagePos, if_neg (by norm_num [WEST, NORTH]),
              if_neg (by norm_num [WEST, SOUTH]),
              if_neg (by norm_num [WEST, EAST])] at hpp
            simp only [Prod.mk.injEq] at hpp
            exact Or.inr (Or.inr (Or.inr (Or.inr ⟨hf, hpp.1, hpp.2⟩)))
      rw [if_pos hex]
  · rw [toBinaryGrid_apply]
    split_ifs
    · right; rfl
    · left; rfl

theorem binary_grid_characterization_witness :
    ((Maze.generate 1 1 0).toBinaryGrid 1 1 = 1 ↔
      (∃ r c, r < 1 ∧ c < 1 ∧ 1 = r * 2 + 1 ∧ 1 = c * 2 + 1) ∨
      (∃ r c d nr nc, r < 1 ∧ c < 1 ∧
        ((Maze.generate 1 1 0).cells r c).walls d = false ∧
        adjacentDir r c d nr nc ∧ nr < 1 ∧ nc < 1 ∧
        ((1 : Nat), (1 : Nat)) = passagePos r c d)) ∧
    ((Maze.generate 1 1 0).toBinaryGrid 1 1 = 0 ∨
      (Maze.generate 1 1 0).toBinaryGrid 1 1 = 1) :=
  binary_grid_characterization 1 1 0 1 1 (by norm_num) (by norm_num) (by norm_num)
    (by norm_num) (by norm_num) (by norm_num)
